import Mathlib

/-!
A shallow embedding of the SimpleFS namespace engine (`src/simplefs.c`) and
the path resolver of its command layer (`src/main.c`), together with proofs
of the specification's testable properties.

Modelling conventions:
* A C node (`node_t`) is a `Node`: a tagged variant holding its `name`, the
  stored 1-based `depth`, and either a file's content string or a directory's
  child table.  The C `parent` back-pointer is not stored; a node is
  addressed by its path (list of names) from the root, and the parent is the
  node addressed by the path's prefix.
* The per-directory hashtable (an external collaborator whose implementation
  is not part of the sources) is modelled as the list of child nodes keyed by
  their `name` field, with `hashtable_get`/`set`/`remove`/`get_size`/`iterate`
  as first-match lookup, append, first-match removal, length and list order.
* Fallible operations return `Option`; `none` is the C failure return
  (-1 / NULL).
* The creation limits `MAX_NODES`, `MAX_NAMELENGHT`, `MAX_DEPTH` live in the
  header that is not under the sources; they are kept abstract in a `Limits`
  record and every theorem holds for all values.
* C strings are Lean `String`s (`strlen` = `String.length`, byte = char).
-/

namespace SimpleFS

/-- Node kind tag: the C `uint8_t type` field with its two enum values
`File` and `Dir`. -/
inductive NType where
  | file
  | dir
deriving DecidableEq

/-- The creation limits `MAX_NODES`, `MAX_NAMELENGHT` (sic, the header's
spelling) and `MAX_DEPTH`, kept abstract. -/
structure Limits where
  maxNodes : Nat
  maxNameLenght : Nat
  maxDepth : Nat

/-- A filesystem node (`node_t`): name, stored depth, and a payload that is a
content string (file) or a child table (directory).  The child table is the
list of children; each child is keyed by its own `name` (the C inserts with
`hashtable_set(parent->payload.dirhash, child->name, child)`). -/
inductive Node where
  | file (name : String) (depth : Nat) (content : String)
  | dir (name : String) (depth : Nat) (children : List Node)

/-- The `name` field of a node. -/
def Node.name : Node → String
  | .file n _ _ => n
  | .dir n _ _ => n

/-- The `depth` field of a node. -/
def Node.depth : Node → Nat
  | .file _ d _ => d
  | .dir _ d _ => d

/-- Test `fs_get_type(node) == Dir`. -/
def Node.isDir : Node → Bool
  | .file _ _ _ => false
  | .dir _ _ _ => true

/-- Test `fs_get_type(node) == File`. -/
def Node.isFile : Node → Bool
  | .file _ _ _ => true
  | .dir _ _ _ => false

/-- A directory's child table (empty for a file, which owns no table). -/
def Node.children : Node → List Node
  | .file _ _ _ => []
  | .dir _ _ ch => ch

/-- The `hashtable_get_size` of a directory's table. -/
def Node.numChildren (n : Node) : Nat :=
  n.children.length

/-- Lookup `hashtable_get(dirhash, key)` / `fs_find_in_dir`: first child whose name
is `key`. -/
def findInDir (key : String) : List Node → Option Node
  | [] => none
  | c :: cs => if c.name == key then some c else findInDir key cs

/-- Read `fs_get_file_content`: NULL (`none`) unless the node is a file. -/
def fs_get_file_content : Node → Option String
  | .file _ _ c => some c
  | .dir _ _ _ => none

/-- Write `fs_set_file_content`: fails unless the node is a file; otherwise the old
content is dropped and replaced by (a copy of) the new content. -/
def fs_set_file_content (node : Node) (newContent : String) : Option Node :=
  match node with
  | .file n d _ => some (.file n d newContent)
  | .dir _ _ _ => none

/-- Creation `fs_create`: create a new empty file or directory under `parent`.  The
four guards are checked before anything is allocated or inserted; on success
the child (depth `parent.depth + 1`, empty content or empty table) is
appended to the parent's table.  The command layer only ever passes a
directory as `parent` (`do_create` gets it from the capture mode of
`enter_path`); for a file parent the C would read a garbage table, and the
embedding returns failure. -/
def fs_create (lim : Limits) (parent : Node) (key : String) (t : NType) :
    Option Node :=
  match parent with
  | .file _ _ _ => none
  | .dir nm d ch =>
    if (findInDir key ch).isSome then none
    else if lim.maxNodes ≤ ch.length then none
    else if lim.maxNameLenght < key.length then none
    else if lim.maxDepth ≤ d then none
    else
      match t with
      | .dir => some (.dir nm d (ch ++ [.dir key (d + 1) []]))
      | .file => some (.dir nm d (ch ++ [.file key (d + 1) ""]))

/-- Root construction `fs_new_root`: a depth-1 directory with empty name and empty table. -/
def fs_new_root : Node :=
  .dir "" 1 []

/-- The child node `fs_create` builds for a given key, depth and kind. -/
def newChild (key : String) (d : Nat) : NType → Node
  | .dir => .dir key d []
  | .file => .file key d ""

/-- Exact-path lookup: the node reached from `n` by looking up each name of
`p` in turn in the current directory's table.  This is the parent-pointer
structure made explicit: the node addressed by `p` has, as its parent chain,
the nodes addressed by the prefixes of `p`. -/
def getAt : List String → Node → Option Node
  | [], n => some n
  | _ :: _, .file _ _ _ => none
  | key :: rest, .dir _ _ ch =>
    match findInDir key ch with
    | some c => getAt rest c
    | none => none

/-- The token loop of `enter_path` (`main.c`).  `capture` is whether the
caller passed a non-NULL `new_name` slot.  At each token the current node
must be a directory; a found token descends; a missing token either captures
the leftover name (capture mode, and only when it is the final token) or
fails.  Consuming every token returns the current node with no captured
name. -/
def walk (capture : Bool) : List String → Node → Option (Node × Option String)
  | [], node => some (node, none)
  | _ :: _, .file _ _ _ => none
  | key :: rest, .dir nm d ch =>
    match findInDir key ch with
    | some child => walk capture rest child
    | none =>
      if capture && rest.isEmpty then some (.dir nm d ch, some key)
      else none

/-- Resolution `enter_path`: fails outright on an empty token sequence (the first
`strtok` returned NULL), otherwise runs the token loop. -/
def enter_path (capture : Bool) (tokens : List String) (node : Node) :
    Option (Node × Option String) :=
  match tokens with
  | [] => none
  | _ :: _ => walk capture tokens node

/-- Removal `hashtable_remove(parent->dirhash, key)`: drop the first child whose
name is `key`. -/
def eraseEntry (key : String) : List Node → List Node
  | [] => []
  | c :: cs => if c.name == key then cs else c :: eraseEntry key cs

/-- In-place mutation of a child seen through its parent's table: the first
child whose name is `key` is replaced by its updated version (the C mutates
the node behind the stored pointer, so the table keeps mapping `key` to the
same, now-changed node). -/
def replaceEntry (key : String) (c' : Node) : List Node → List Node
  | [] => []
  | c :: cs => if c.name == key then c' :: cs else c :: replaceEntry key c' cs

/-- Removal of the node addressed by `p` from its parent's table, the common
effect of `fs_free_file` and of a successful `fs_free_dir`.  Both free
functions run `hashtable_remove(node->parent->payload.dirhash, node->name)`
with an unguarded `node->parent` dereference; for `p = []` (the root, whose
parent is NULL) that dereference is undefined behaviour and is modelled as
`none` — the command layer never reaches it (see the C10 theorem). -/
def removeAt : List String → Node → Option Node
  | [], _ => none
  | _ :: _, .file _ _ _ => none
  | [key], .dir nm d ch =>
    if (findInDir key ch).isSome then some (.dir nm d (eraseEntry key ch))
    else none
  | key :: key2 :: rest, .dir nm d ch =>
    match findInDir key ch with
    | some c =>
      match removeAt (key2 :: rest) c with
      | some c' => some (.dir nm d (replaceEntry key c' ch))
      | none => none
    | none => none

/-- Deletion `fs_delete` on the node addressed by `p`: a file is always freed
(`fs_free_file`); a directory is freed only when its table is empty
(`fs_free_dir` checks `hashtable_get_size == 0` before touching anything
and returns -1 otherwise, leaving the tree as it was). -/
def fs_delete (p : List String) (root : Node) : Option Node :=
  match getAt p root with
  | some (.file _ _ _) => removeAt p root
  | some (.dir _ _ ch) => if ch.isEmpty then removeAt p root else none
  | none => none

/-- Recursive deletion `fs_delete_r` on the node addressed by `p`: first every child of a
directory is recursively deleted (restarting the table iterator after each
removal), which empties the node's subtree, then `fs_free_dir` (now
guaranteed to see an empty table) or `fs_free_file` removes the node itself
from its parent's table.  The net effect on the tree is the removal of the
addressed entry. -/
def fs_delete_r (p : List String) (root : Node) : Option Node :=
  match getAt p root with
  | some _ => removeAt p root
  | none => none

/-- The do-while loop of `fs_get_path`, over the chain of `name` fields from
the current node up to and including the root (the root's name is the empty
string).  The body prepends `"/" ++ name`, then steps to the parent; the
loop condition then reads `node->parent` of the new current node.  An empty
chain means the current node is absent (NULL): the condition's read is
undefined behaviour, modelled as `none`.  That happens exactly when the loop
is started on the root itself, whose parent is NULL. -/
def getPathLoop (acc : String) : List String → Option String
  | [] => none
  | nm :: rest =>
    match rest with
    | [] => none
    | [_] => some ("/" ++ nm ++ acc)
    | _ :: _ :: _ => getPathLoop ("/" ++ nm ++ acc) rest

/-- Path reconstruction `fs_get_path` of the node addressed by `p`: the parent chain carries the
names of `p` in reverse, ending with the root's empty name. -/
def fs_get_path_at (p : List String) : Option String :=
  getPathLoop "" (p.reverse ++ [""])

/-- The absolute path string of the node addressed by `p`:
`"/" ++ p 0 ++ "/" ++ p 1 ++ ⋯`. -/
def pathStr (p : List String) : String :=
  p.foldr (fun nm acc => "/" ++ nm ++ acc) ""

/-- Delimiter set of every `strtok` call after the first inside
`enter_path`: `"/\n\r"`. -/
def sep2 (c : Char) : Bool :=
  c == '/' || c == '\n' || c == '\r'

/-- Delimiter set of the first `strtok` call inside `enter_path`:
`" /\n\r"`. -/
def sep1 (c : Char) : Bool :=
  c == ' ' || sep2 c

/-- Repeated `strtok(NULL, "/\n\r")`: maximal nonempty chunks between `sep2`
characters.  `cur` is the (reversed) chunk read so far. -/
def tok2Go (cur : List Char) : List Char → List String
  | [] => if cur.isEmpty then [] else [cur.reverse.asString]
  | c :: cs =>
    if sep2 c then
      if cur.isEmpty then tok2Go [] cs
      else cur.reverse.asString :: tok2Go [] cs
    else tok2Go (c :: cur) cs

/-- The tokenization `enter_path` performs: the first token is cut with
delimiters `" /\n\r"`; `strtok` then overwrites the terminating delimiter
and continues right after it with delimiters `"/\n\r"`.  No token at all
(a string of delimiters only) gives the empty sequence. -/
def tokenizePath (s : String) : List String :=
  let l := s.toList.dropWhile (fun c => sep1 c)
  if l.isEmpty then []
  else
    let t1 := l.takeWhile (fun c => !sep1 c)
    let rest := l.dropWhile (fun c => !sep1 c)
    t1.asString ::
      match rest with
      | [] => []
      | _ :: rs => tok2Go [] rs

/-- The character sequence of `pathStr p`. -/
def pathChars (p : List String) : List Char :=
  p.flatMap (fun nm => '/' :: nm.toList)

/-- A name as the engine can ever store one: a nonempty `strtok` token, so
free of the separator characters `/`, `\n`, `\r`. -/
def validName (s : String) : Bool :=
  !s.toList.isEmpty && s.toList.all (fun c => !sep2 c)

mutual
/-- Search `fs_find_r`: collect, over the subtree of a directory, every child whose
name equals `key` (recorded before recursing, regardless of kind) and
recurse into every child directory (matched or not).  The C never calls this
on a file (it reads the dir table); a file yields no matches. -/
def fs_find_r (key : String) : Node → List Node
  | .file _ _ _ => []
  | .dir _ _ ch => fs_find_list key ch
/-- The table-iteration loop of `fs_find_r` over a directory's children. -/
def fs_find_list (key : String) : List Node → List Node
  | [] => []
  | c :: cs =>
    ((if c.name == key then [c] else []) ++
      (if c.isDir then fs_find_r key c else [])) ++ fs_find_list key cs
end

mutual
/-- All proper descendants of a node, in table-iteration order (each child
followed by its own descendants). -/
def descendants : Node → List Node
  | .file _ _ _ => []
  | .dir _ _ ch => descendantsList ch
/-- Descendants of a forest: each tree's root followed by its descendants. -/
def descendantsList : List Node → List Node
  | [] => []
  | c :: cs => (c :: descendants c) ++ descendantsList cs
end

/-- No child of the table has the given name. -/
def nameAbsent (key : String) : List Node → Bool
  | [] => true
  | c :: cs => !(c.name == key) && nameAbsent key cs

/-- The names of a table are pairwise distinct. -/
def namesDistinct : List Node → Bool
  | [] => true
  | c :: cs => nameAbsent c.name cs && namesDistinct cs

mutual
/-- Structural well-formedness the engine maintains: in every directory of
the tree, sibling names are pairwise distinct (`fs_create` checks existence
before inserting). -/
def nodupTree : Node → Bool
  | .file _ _ _ => true
  | .dir _ _ ch => namesDistinct ch && nodupForest ch
/-- The predicate `nodupTree` over a forest. -/
def nodupForest : List Node → Bool
  | [] => true
  | c :: cs => nodupTree c && nodupForest cs
end

/-- State-passing form of `fs_create` as its caller sees it: the C mutates
the tree in place and returns a flag; all failure exits happen before the
first mutation, so a failing call hands back the parent unchanged. -/
def applyCreate (lim : Limits) (parent : Node) (key : String) (t : NType) :
    Node × Bool :=
  match fs_create lim parent key t with
  | some parent' => (parent', true)
  | none => (parent, false)

/-- State-passing form of `fs_set_file_content`: the kind check precedes the
`free`/`strdup` pair, so a failing call hands back the node unchanged. -/
def applyWrite (node : Node) (newContent : String) : Node × Bool :=
  match fs_set_file_content node newContent with
  | some node' => (node', true)
  | none => (node, false)

/-- State-passing form of `fs_delete`: `fs_free_dir` checks emptiness before
freeing anything, so a failing call hands back the tree unchanged. -/
def applyDelete (p : List String) (root : Node) : Node × Bool :=
  match fs_delete p root with
  | some root' => (root', true)
  | none => (root, false)

/-- Induction over `Node` following the child-table nesting. -/
theorem node_ind (P : Node → Prop) (hfile : ∀ nm d c, P (.file nm d c))
    (hdir : ∀ nm d ch, (∀ c ∈ ch, P c) → P (.dir nm d ch)) : ∀ n, P n :=
  fun n =>
    match n with
    | .file nm d c => hfile nm d c
    | .dir nm d ch => hdir nm d ch (fun c _ => node_ind P hfile hdir c)
termination_by n => sizeOf n
decreasing_by
  simp_wf
  have := List.sizeOf_lt_of_mem (by assumption : c ∈ ch)
  omega

/-! ### Library of facts about the table operations -/

theorem findInDir_name {key : String} : ∀ {ch : List Node} {c : Node},
    findInDir key ch = some c → c.name = key := by
  intro ch
  induction ch with
  | nil => intro c h; simp [findInDir] at h
  | cons a cs ih =>
    intro c h
    by_cases ha : a.name == key
    · simp only [findInDir, ha, if_pos] at h
      cases h
      exact eq_of_beq ha
    · simp only [findInDir, ha, if_neg, Bool.false_eq_true, if_false] at h
      exact ih h

theorem findInDir_mem {key : String} : ∀ {ch : List Node} {c : Node},
    findInDir key ch = some c → c ∈ ch := by
  intro ch
  induction ch with
  | nil => intro c h; simp [findInDir] at h
  | cons a cs ih =>
    intro c h
    simp only [findInDir] at h
    split at h
    · cases h; exact List.mem_cons_self a cs
    · exact List.mem_cons_of_mem a (ih h)

theorem findInDir_append_none {key : String} : ∀ {ch : List Node}
    (l : List Node), findInDir key ch = none →
    findInDir key (ch ++ l) = findInDir key l := by
  intro ch
  induction ch with
  | nil => intro l _; rfl
  | cons a cs ih =>
    intro l h
    simp only [findInDir] at h
    simp only [List.cons_append, findInDir]
    split at h
    · simp at h
    · rename_i hcond
      rw [if_neg hcond]
      exact ih l h

theorem nameAbsent_find {key : String} : ∀ {ch : List Node},
    nameAbsent key ch = true → findInDir key ch = none := by
  intro ch
  induction ch with
  | nil => intro _; rfl
  | cons a cs ih =>
    intro h
    simp only [nameAbsent, Bool.and_eq_true, Bool.not_eq_true'] at h
    simp [findInDir, h.1, ih h.2]

theorem findInDir_eraseEntry_self {key : String} : ∀ {ch : List Node},
    namesDistinct ch = true → findInDir key (eraseEntry key ch) = none := by
  intro ch
  induction ch with
  | nil => intro _; rfl
  | cons a cs ih =>
    intro h
    simp only [namesDistinct, Bool.and_eq_true] at h
    by_cases ha : a.name == key
    · simp only [eraseEntry, ha, if_pos]
      have : a.name = key := eq_of_beq ha
      exact nameAbsent_find (this ▸ h.1)
    · have he : eraseEntry key (a :: cs) = a :: eraseEntry key cs := by
        simp [eraseEntry, ha]
      rw [he, findInDir, if_neg ha]
      exact ih h.2

theorem length_eraseEntry {key : String} : ∀ {ch : List Node},
    (findInDir key ch).isSome = true →
    (eraseEntry key ch).length + 1 = ch.length := by
  intro ch
  induction ch with
  | nil => intro h; simp [findInDir] at h
  | cons a cs ih =>
    intro h
    by_cases ha : a.name == key
    · simp [eraseEntry, ha]
    · simp only [findInDir, ha, Bool.false_eq_true, if_false] at h
      simp [eraseEntry, ha, ← ih h]

theorem findInDir_replaceEntry_self {key : String} {c' : Node}
    (hn : c'.name = key) : ∀ {ch : List Node},
    (findInDir key ch).isSome = true →
    findInDir key (replaceEntry key c' ch) = some c' := by
  intro ch
  induction ch with
  | nil => intro h; simp [findInDir] at h
  | cons a cs ih =>
    intro h
    by_cases ha : a.name == key
    · simp [replaceEntry, ha, findInDir, hn]
    · simp only [findInDir, ha, Bool.false_eq_true, if_false] at h
      simp [replaceEntry, ha, findInDir, ih h]

theorem nodupForest_mem : ∀ {ch : List Node} {c : Node},
    nodupForest ch = true → c ∈ ch → nodupTree c = true := by
  intro ch
  induction ch with
  | nil => intro c _ hc; simp at hc
  | cons a cs ih =>
    intro c h hc
    simp only [nodupForest, Bool.and_eq_true] at h
    rcases List.mem_cons.mp hc with rfl | hc2
    · exact h.1
    · exact ih h.2 hc2

theorem nodupTree_dir {nm : String} {d : Nat} {ch : List Node}
    (h : nodupTree (.dir nm d ch) = true) :
    namesDistinct ch = true ∧ nodupForest ch = true := by
  simpa [nodupTree, Bool.and_eq_true] using h

theorem removeAt_name : ∀ (p : List String) (nd nd' : Node),
    removeAt p nd = some nd' → nd'.name = nd.name := by
  intro p nd nd' h
  match p, nd with
  | [], _ => simp [removeAt] at h
  | _ :: _, .file _ _ _ => simp [removeAt] at h
  | [key], .dir nm d ch =>
    simp only [removeAt] at h
    split at h
    · cases h; rfl
    · exact absurd h (by simp)
  | key :: key2 :: rest, .dir nm d ch =>
    simp only [removeAt] at h
    split at h
    · split at h
      · cases h; rfl
      · exact absurd h (by simp)
    · exact absurd h (by simp)

/-- Core removal property shared by the delete operations: removing the node
addressed by a nonempty path `p` from a tree with distinct sibling names
succeeds, makes `p` unresolvable, and shrinks the parent's table by exactly
one entry. -/
theorem removeAt_spec : ∀ (p : List String) (root n : Node), p ≠ [] →
    getAt p root = some n → nodupTree root = true →
    ∃ root' par par', removeAt p root = some root' ∧ getAt p root' = none ∧
      getAt p.dropLast root = some par ∧ getAt p.dropLast root' = some par' ∧
      par'.numChildren + 1 = par.numChildren := by
  intro p
  induction p with
  | nil => intro root n hp; exact absurd rfl hp
  | cons key rest ih =>
    intro root n _ hres hnd
    cases root with
    | file nm d c => simp [getAt] at hres
    | dir nm d ch =>
      simp only [getAt] at hres
      obtain ⟨hdist, hforest⟩ := nodupTree_dir hnd
      cases hfd : findInDir key ch with
      | none => rw [hfd] at hres; simp at hres
      | some c =>
        rw [hfd] at hres
        cases rest with
        | nil =>
          refine ⟨.dir nm d (eraseEntry key ch), .dir nm d ch,
            .dir nm d (eraseEntry key ch), ?_, ?_, rfl, rfl, ?_⟩
          · simp [removeAt, hfd]
          · simp only [getAt]
            rw [findInDir_eraseEntry_self hdist]
          · simpa [Node.numChildren, Node.children] using
              length_eraseEntry (by simp [hfd])
        | cons key2 rest2 =>
          have hndc : nodupTree c = true :=
            nodupForest_mem hforest (findInDir_mem hfd)
          obtain ⟨c', par, par', h1, h2, h3, h4, h5⟩ :=
            ih c n (by simp) hres hndc
          have hcn : c.name = key := findInDir_name hfd
          have hc'n : c'.name = key := (removeAt_name _ _ _ h1).trans hcn
          have hrepl : findInDir key (replaceEntry key c' ch) = some c' :=
            findInDir_replaceEntry_self hc'n (by simp [hfd])
          refine ⟨.dir nm d (replaceEntry key c' ch), par, par', ?_, ?_, ?_, ?_, h5⟩
          · simp [removeAt, hfd, h1]
          · simp only [getAt]
            rw [hrepl]
            exact h2
          · simp only [List.dropLast, getAt]
            rw [hfd]
            exact h3
          · simp only [List.dropLast, getAt]
            rw [hrepl]
            exact h4

/-- The no-capture token walk is exact-path lookup. -/
theorem walk_false_getAt : ∀ (p : List String) (root : Node),
    walk false p root = (getAt p root).map (fun n => (n, none)) := by
  intro p
  induction p with
  | nil => intro root; rfl
  | cons key rest ih =>
    intro root
    cases root with
    | file nm d c => rfl
    | dir nm d ch =>
      simp only [walk, getAt]
      cases hfd : findInDir key ch with
      | none => simp
      | some c => exact ih c

/-! ### The claims -/

/-- C1: `fs_create(parentDir, name, kind)` fails exactly when a sibling with
that name exists, or the parent already has `MAX_NODES` children, or the name
is longer than `MAX_NAMELENGHT`, or the parent's depth is at least
`MAX_DEPTH`; on success it appends a fresh child of depth
`parentDir.depth + 1` with empty content (file) or empty table (directory)
to the parent's table. -/
theorem fs_create_spec (lim : Limits) (nm : String) (d : Nat) (ch : List Node)
    (key : String) (t : NType) :
    (fs_create lim (.dir nm d ch) key t = none ↔
      (findInDir key ch).isSome = true ∨ lim.maxNodes ≤ ch.length ∨
        lim.maxNameLenght < key.length ∨ lim.maxDepth ≤ d)
    ∧ (fs_create lim (.dir nm d ch) key t ≠ none →
        fs_create lim (.dir nm d ch) key t =
          some (.dir nm d (ch ++ [newChild key (d + 1) t]))) := by
  simp only [fs_create]
  split_ifs with h1 h2 h3 h4
  · exact ⟨by simp [h1], fun h => absurd rfl h⟩
  · exact ⟨by simp [h2], fun h => absurd rfl h⟩
  · exact ⟨by simp [h3], fun h => absurd rfl h⟩
  · exact ⟨by simp [h4], fun h => absurd rfl h⟩
  · cases t <;> exact ⟨by simp [h1, h2, h3, h4], fun _ => rfl⟩

/-- Witness for C1: creating `"a"` in an empty root with limits (2, 5, 3)
succeeds and appends the empty file of depth 2. -/
theorem fs_create_spec_witness :
    fs_create ⟨2, 5, 3⟩ (.dir "" 1 []) "a" .file =
      some (.dir "" 1 ([] ++ [newChild "a" (1 + 1) .file])) :=
  (fs_create_spec ⟨2, 5, 3⟩ "" 1 [] "a" .file).2 (fun h => Option.noConfusion h)

/-- C3: `fs_delete_r` on a node addressed by a nonempty resolvable path in a
tree with distinct sibling names never fails; afterwards the node's former
path no longer resolves and the former parent's child count has decreased by
exactly one. -/
theorem fs_delete_r_spec (root n : Node) (p : List String) (hp : p ≠ [])
    (hres : getAt p root = some n) (hnd : nodupTree root = true) :
    ∃ root' par par', fs_delete_r p root = some root' ∧ getAt p root' = none ∧
      getAt p.dropLast root = some par ∧ getAt p.dropLast root' = some par' ∧
      par'.numChildren + 1 = par.numChildren := by
  obtain ⟨root', par, par', h1, h2, h3, h4, h5⟩ :=
    removeAt_spec p root n hp hres hnd
  exact ⟨root', par, par', by simp [fs_delete_r, hres, h1], h2, h3, h4, h5⟩

/-- Witness for C3: recursively deleting `/a` (a directory with one child)
from a two-level tree. -/
theorem fs_delete_r_spec_witness :
    ∃ root' par par',
      fs_delete_r ["a"] (.dir "" 1 [.dir "a" 2 [.file "f" 3 "hi"]]) = some root' ∧
      getAt ["a"] root' = none ∧
      getAt (["a"].dropLast) (.dir "" 1 [.dir "a" 2 [.file "f" 3 "hi"]]) = some par ∧
      getAt (["a"].dropLast) root' = some par' ∧
      par'.numChildren + 1 = par.numChildren :=
  fs_delete_r_spec (.dir "" 1 [.dir "a" 2 [.file "f" 3 "hi"]])
    (.dir "a" 2 [.file "f" 3 "hi"]) ["a"] (by decide) rfl (by rfl)

/-- C4: non-recursive `fs_delete` on a file always succeeds and removes the
entry from the parent's table; on a directory it succeeds exactly when the
directory has no children, and with children present it returns failure
without touching the tree (the emptiness check in `fs_free_dir` precedes any
mutation, and nothing recurses into the children). -/
theorem fs_delete_spec (root n : Node) (p : List String) (hp : p ≠ [])
    (hres : getAt p root = some n) (hnd : nodupTree root = true) :
    (n.isFile = true →
      ∃ root' par par', fs_delete p root = some root' ∧ getAt p root' = none ∧
        getAt p.dropLast root = some par ∧ getAt p.dropLast root' = some par' ∧
        par'.numChildren + 1 = par.numChildren)
    ∧ (n.isDir = true → ((fs_delete p root).isSome = true ↔ n.children = []))
    ∧ (n.isDir = true → n.children ≠ [] → fs_delete p root = none) := by
  obtain ⟨root', par, par', h1, h2, h3, h4, h5⟩ :=
    removeAt_spec p root n hp hres hnd
  refine ⟨?_, ?_, ?_⟩
  · intro hf
    cases n with
    | dir _ _ _ => simp [Node.isDir, Node.isFile] at hf
    | file nm d c =>
      exact ⟨root', par, par', by simp [fs_delete, hres, h1], h2, h3, h4, h5⟩
  · intro hd
    cases n with
    | file _ _ _ => simp [Node.isDir] at hd
    | dir nm2 d2 ch2 =>
      simp only [Node.children]
      cases ch2 with
      | nil => simp [fs_delete, hres, h1]
      | cons a cs => simp [fs_delete, hres]
  · intro hd hne
    cases n with
    | file _ _ _ => simp [Node.isDir] at hd
    | dir nm2 d2 ch2 =>
      cases ch2 with
      | nil => simp [Node.children] at hne
      | cons a cs => simp [fs_delete, hres]

/-- Witness for C4: deleting the file `/a/f`. -/
theorem fs_delete_spec_witness :
    ∃ root' par par',
      fs_delete ["a", "f"] (.dir "" 1 [.dir "a" 2 [.file "f" 3 "hi"]]) = some root' ∧
      getAt ["a", "f"] root' = none ∧
      getAt (["a", "f"].dropLast) (.dir "" 1 [.dir "a" 2 [.file "f" 3 "hi"]]) =
        some par ∧
      getAt (["a", "f"].dropLast) root' = some par' ∧
      par'.numChildren + 1 = par.numChildren :=
  (fs_delete_spec (.dir "" 1 [.dir "a" 2 [.file "f" 3 "hi"]]) (.file "f" 3 "hi")
    ["a", "f"] (by decide) rfl (by rfl)).1 rfl

/-- C10: the deletion operations presuppose a node with a parent, and the
command layer guarantees it: `enter_path` fails on the empty token sequence,
every successful no-capture resolution therefore used a nonempty path and
addresses a non-root node, and recursive deletion of such a node succeeds,
returning a tree that still has its root (the root node survives every
command). -/
theorem delete_nonroot_spec :
    (∀ (node : Node) (capture : Bool), enter_path capture [] node = none)
    ∧ (∀ (root : Node) (ts : List String) (n : Node) (o : Option String),
        enter_path false ts root = some (n, o) →
        ts ≠ [] ∧ o = none ∧ getAt ts root = some n)
    ∧ (∀ (root : Node) (ts : List String) (n : Node),
        nodupTree root = true → enter_path false ts root = some (n, none) →
        ∃ root', fs_delete_r ts root = some root') := by
  have hwalk : ∀ (root : Node) (t : String) (ts' : List String) (n : Node)
      (o : Option String), enter_path false (t :: ts') root = some (n, o) →
      o = none ∧ getAt (t :: ts') root = some n := by
    intro root t ts' n o h
    rw [show enter_path false (t :: ts') root = walk false (t :: ts') root
        from rfl, walk_false_getAt] at h
    cases hg : getAt (t :: ts') root with
    | none => rw [hg] at h; simp at h
    | some m =>
      rw [hg] at h
      simp at h
      exact ⟨h.2.symm, by simp [hg, h.1]⟩
  refine ⟨fun node capture => rfl, ?_, ?_⟩
  · intro root ts n o h
    cases ts with
    | nil => simp [enter_path] at h
    | cons t ts' =>
      obtain ⟨ho, hg⟩ := hwalk root t ts' n o h
      exact ⟨by simp, ho, hg⟩
  · intro root ts n hnd h
    cases ts with
    | nil => simp [enter_path] at h
    | cons t ts' =>
      obtain ⟨-, hg⟩ := hwalk root t ts' n none h
      obtain ⟨root', par, par', h1, -⟩ :=
        removeAt_spec (t :: ts') root n (by simp) hg hnd
      exact ⟨root', by simp [fs_delete_r, hg, h1]⟩

/-- Witness for C10: resolving `a` and recursively deleting it. -/
theorem delete_nonroot_spec_witness :
    ∃ root', fs_delete_r ["a"] (.dir "" 1 [.dir "a" 2 [.file "f" 3 "hi"]]) =
      some root' :=
  delete_nonroot_spec.2.2 (.dir "" 1 [.dir "a" 2 [.file "f" 3 "hi"]]) ["a"]
    (.dir "a" 2 [.file "f" 3 "hi"]) (by rfl) rfl

/-- C8: after a successful `fs_create` of a file, writing any content with
`fs_set_file_content` and reading it back with `fs_get_file_content` yields
exactly the written content; and each content operation fails precisely on a
node that is not a file. -/
theorem content_roundtrip_spec (lim : Limits) (nm : String) (d : Nat)
    (ch : List Node) (key content : String) (parent' : Node)
    (hc : fs_create lim (.dir nm d ch) key .file = some parent') :
    (∃ c c', findInDir key parent'.children = some c ∧
        fs_set_file_content c content = some c' ∧
        fs_get_file_content c' = some content)
    ∧ (∀ node : Node, fs_set_file_content node content = none ↔
        node.isFile = false)
    ∧ (∀ node : Node, fs_get_file_content node = none ↔ node.isFile = false) := by
  refine ⟨?_, ?_, ?_⟩
  · simp only [fs_create] at hc
    split_ifs at hc with h1 h2 h3 h4
    obtain rfl : Node.dir nm d (ch ++ [.file key (d + 1) ""]) = parent' := by
      simpa using hc
    refine ⟨.file key (d + 1) "", .file key (d + 1) content, ?_, rfl, rfl⟩
    have hnone : findInDir key ch = none := by
      cases hfd : findInDir key ch with
      | none => rfl
      | some c => exact absurd (by simp [hfd]) h1
    simp only [Node.children]
    rw [findInDir_append_none _ hnone]
    simp [findInDir, Node.name]
  · intro node; cases node <;> simp [fs_set_file_content, Node.isFile]
  · intro node; cases node <;> simp [fs_get_file_content, Node.isFile]

/-- Witness for C8: create `f`, write `"hello"`, read `"hello"` back. -/
theorem content_roundtrip_spec_witness :
    ∃ c c', findInDir "f" (Node.dir "" 1 [Node.file "f" 2 ""]).children =
        some c ∧
      fs_set_file_content c "hello" = some c' ∧
      fs_get_file_content c' = some "hello" :=
  (content_roundtrip_spec ⟨2, 5, 3⟩ "" 1 [] "f" "hello"
    (Node.dir "" 1 [Node.file "f" 2 ""]) (by rfl)).1

/-- C9: no engine mutation is partially applied — whenever create, delete or
write signals failure, the caller's tree is handed back exactly as it was
(every failure exit in the C precedes the first mutation). -/
theorem failure_preserves_tree :
    (∀ (lim : Limits) (parent : Node) (key : String) (t : NType),
      (applyCreate lim parent key t).2 = false →
      (applyCreate lim parent key t).1 = parent)
    ∧ (∀ (node : Node) (content : String), (applyWrite node content).2 = false →
        (applyWrite node content).1 = node)
    ∧ (∀ (p : List String) (root : Node), (applyDelete p root).2 = false →
        (applyDelete p root).1 = root) := by
  refine ⟨?_, ?_, ?_⟩
  · intro lim parent key t h
    cases hc : fs_create lim parent key t with
    | none => simp [applyCreate, hc]
    | some parent' => simp [applyCreate, hc] at h
  · intro node content h
    cases hc : fs_set_file_content node content with
    | none => simp [applyWrite, hc]
    | some node' => simp [applyWrite, hc] at h
  · intro p root h
    cases hc : fs_delete p root with
    | none => simp [applyDelete, hc]
    | some root' => simp [applyDelete, hc] at h

/-- Witness for C9: a create with an over-long name fails and returns the
parent unchanged. -/
theorem failure_preserves_tree_witness :
    (applyCreate ⟨2, 5, 3⟩ fs_new_root "toolong" .file).1 = fs_new_root :=
  failure_preserves_tree.1 ⟨2, 5, 3⟩ fs_new_root "toolong" .file (by decide)

/-- The table-iteration loop of `fs_find_r` collects exactly the
name-filtered descendants, given that it does so for each child. -/
theorem find_list_filter (key : String) : ∀ (ch : List Node),
    (∀ c ∈ ch, fs_find_r key c =
      (descendants c).filter (fun x => x.name == key)) →
    fs_find_list key ch =
      (descendantsList ch).filter (fun x => x.name == key) := by
  intro ch
  induction ch with
  | nil => intro _; simp [fs_find_list, descendantsList]
  | cons c cs ihl =>
    intro h
    have hc := h c (by simp)
    have hcs := ihl (fun x hx => h x (List.mem_cons_of_mem _ hx))
    simp only [fs_find_list, descendantsList, List.filter_append, hcs]
    congr 1
    cases c with
    | file nm2 d2 co =>
      by_cases hk : nm2 == key
      · simp [Node.isDir, Node.name, descendants, List.filter_cons, hk]
      · simp [Node.isDir, Node.name, descendants, List.filter_cons, hk]
    | dir nm2 d2 ch2 =>
      by_cases hk : nm2 == key
      · simp [Node.isDir, Node.name, List.filter_cons, hk, hc]
      · simp [Node.isDir, Node.name, List.filter_cons, hk, hc]

/-- C5: `fs_find_r` returns exactly the nodes of the subtree whose name is
the target — every child of every directory reachable from the root is
tested regardless of kind, and recursion enters every child directory even
when the directory itself matched, so a directory `log` holding a file `log`
yields both. -/
theorem fs_find_r_spec :
    (∀ (key : String) (n : Node),
      fs_find_r key n = (descendants n).filter (fun c => c.name == key))
    ∧ fs_find_r "log" (.dir "" 1 [.dir "log" 2 [.file "log" 3 ""]]) =
        [.dir "log" 2 [.file "log" 3 ""], .file "log" 3 ""] := by
  constructor
  · intro key n
    induction n using node_ind with
    | hfile nm d c => simp [fs_find_r, descendants]
    | hdir nm d ch ih =>
      simp only [fs_find_r, descendants]
      exact find_list_filter key ch ih
  · rfl

/-- C7 counterexample: `fs_get_path` does not handle the root itself.  With
the root as argument the do-while body steps to the root's absent parent and
the loop condition then reads `node->parent` from the absent node (a NULL
dereference in the C); no root path is produced. -/
theorem get_path_root_cex : fs_get_path_at [] = none := rfl

/-- The do-while of `fs_get_path` on a nonempty parent chain folds the names
onto the accumulator and stops at the root without reading past it. -/
theorem getPathLoop_closed : ∀ (r : List String) (nm acc : String),
    getPathLoop acc ((nm :: r) ++ [""]) =
      some ((nm :: r).foldl (fun a s => "/" ++ s ++ a) acc) := by
  intro r
  induction r with
  | nil => intro nm acc; rfl
  | cons m rest ih =>
    intro nm acc
    cases rest with
    | nil => rfl
    | cons k ks =>
      have h2 := ih m ("/" ++ nm ++ acc)
      simp only [List.cons_append] at h2 ⊢
      have hstep : getPathLoop acc (nm :: m :: k :: (ks ++ [""])) =
          getPathLoop ("/" ++ nm ++ acc) (m :: k :: (ks ++ [""])) := rfl
      rw [hstep, h2]
      simp [List.foldl_cons]

/-- The function `fs_get_path` on any non-root node produces the absolute path string. -/
theorem fs_get_path_at_eq (p : List String) (hp : p ≠ []) :
    fs_get_path_at p = some (pathStr p) := by
  cases hr : p.reverse with
  | nil => exact absurd (by simpa using congrArg List.reverse hr) hp
  | cons nm r =>
    have hp2 : p = (nm :: r).reverse := by rw [← hr, List.reverse_reverse]
    rw [fs_get_path_at, hr, getPathLoop_closed, hp2, pathStr,
      List.foldr_reverse]

/-- C7 amended: for every node of depth at least 2 (every non-root node) the
loop terminates upon reaching the root, whose absent parent is compared with
NULL but never dereferenced, and the root contributes no name — the path has
an implicit leading slash built from the non-root ancestors only. -/
theorem get_path_nonroot_spec (p : List String) (hp : p ≠ []) :
    fs_get_path_at p = some (pathStr p) :=
  fs_get_path_at_eq p hp

/-- Witness for the amended C7: the path of the depth-2 node `a`. -/
theorem get_path_nonroot_spec_witness : fs_get_path_at ["a"] = some (pathStr ["a"]) :=
  get_path_nonroot_spec ["a"] (by decide)

/-- On a nonempty token sequence, `enter_path` is the token loop. -/
theorem enter_path_append_single (capture : Bool) (p : List String) (x : String)
    (node : Node) :
    enter_path capture (p ++ [x]) node = walk capture (p ++ [x]) node := by
  cases p <;> rfl

/-- Capture success: if the leading tokens resolve to a directory that lacks
the final token, the walk returns that directory and the leftover name. -/
theorem walk_capture_found : ∀ (p : List String) (root : Node) (x nm : String)
    (d : Nat) (ch : List Node), getAt p root = some (.dir nm d ch) →
    findInDir x ch = none →
    walk true (p ++ [x]) root = some (.dir nm d ch, some x) := by
  intro p
  induction p with
  | nil =>
    intro root x nm d ch h hfx
    simp only [getAt, Option.some.injEq] at h
    subst h
    simp [walk, hfx]
  | cons t p' ih =>
    intro root x nm d ch h hfx
    cases root with
    | file nm2 d2 c => simp [getAt] at h
    | dir nm2 d2 ch2 =>
      simp only [getAt] at h
      cases hfd : findInDir t ch2 with
      | none => rw [hfd] at h; simp at h
      | some c =>
        rw [hfd] at h
        simp only [List.cons_append, walk, hfd]
        exact ih c x nm d ch h hfx

/-- A failure strictly before the final token (a missing component with
tokens still left) makes the capture-mode walk fail. -/
theorem walk_capture_missing : ∀ (p : List String) (root : Node) (x : String),
    getAt p root = none → walk true (p ++ [x]) root = none := by
  intro p
  induction p with
  | nil => intro root x h; simp [getAt] at h
  | cons t p' ih =>
    intro root x h
    cases root with
    | file nm d c => rfl
    | dir nm d ch =>
      simp only [getAt] at h
      simp only [List.cons_append, walk]
      cases hfd : findInDir t ch with
      | none => simp
      | some c =>
        rw [hfd] at h
        simp only []
        exact ih c x h

/-- A file met while tokens remain makes the capture-mode walk fail. -/
theorem walk_capture_file : ∀ (p : List String) (root : Node)
    (x nm : String) (d : Nat) (c : String),
    getAt p root = some (.file nm d c) →
    walk true (p ++ [x]) root = none := by
  intro p
  induction p with
  | nil =>
    intro root x nm d c h
    simp only [getAt, Option.some.injEq] at h
    subst h
    rfl
  | cons t p' ih =>
    intro root x nm d c h
    cases root with
    | file nm2 d2 c2 => simp [getAt] at h
    | dir nm2 d2 ch2 =>
      simp only [getAt] at h
      cases hfd : findInDir t ch2 with
      | none => rw [hfd] at h; simp at h
      | some m =>
        rw [hfd] at h
        simp only [List.cons_append, walk, hfd]
        exact ih m x nm d c h

/-- C2: in capture mode, when every token but the last resolves through
directories and the final token is absent from the final directory, the
resolver returns that directory with the unresolved name; a missing
component before the last token, or a file met as an intermediate component,
still fails; the empty token sequence fails, and a path consisting of
separator characters only tokenizes to the empty sequence. -/
theorem enter_path_capture_spec :
    (∀ node : Node, enter_path true [] node = none)
    ∧ (∀ (root : Node) (p : List String) (x nm : String) (d : Nat)
        (ch : List Node), getAt p root = some (.dir nm d ch) →
        findInDir x ch = none →
        enter_path true (p ++ [x]) root = some (.dir nm d ch, some x))
    ∧ (∀ (root : Node) (p : List String) (x : String), getAt p root = none →
        enter_path true (p ++ [x]) root = none)
    ∧ (∀ (root : Node) (p : List String) (x nm : String) (d : Nat) (c : String),
        getAt p root = some (.file nm d c) →
        enter_path true (p ++ [x]) root = none)
    ∧ (∀ s : String, s.toList.all (fun c => sep1 c) = true →
        tokenizePath s = []) := by
  refine ⟨fun node => rfl, ?_, ?_, ?_, ?_⟩
  · intro root p x nm d ch h hfx
    rw [enter_path_append_single]
    exact walk_capture_found p root x nm d ch h hfx
  · intro root p x h
    rw [enter_path_append_single]
    exact walk_capture_missing p root x h
  · intro root p x nm d c h
    rw [enter_path_append_single]
    exact walk_capture_file p root x nm d c h
  · intro s h
    have hd : List.dropWhile (fun c => sep1 c) s.data = [] := by
      rw [List.dropWhile_eq_nil_iff]
      simpa using h
    simp [tokenizePath, String.toList, hd]

/-- Witness for C2: resolving `a/new` in capture mode returns the directory
`a` and the unresolved name `new`. -/
theorem enter_path_capture_spec_witness :
    enter_path true (["a"] ++ ["new"]) (.dir "" 1 [.dir "a" 2 [.file "f" 3 "hi"]]) =
      some (.dir "a" 2 [.file "f" 3 "hi"], some "new") :=
  enter_path_capture_spec.2.1 (.dir "" 1 [.dir "a" 2 [.file "f" 3 "hi"]])
    ["a"] "new" "a" 2 [.file "f" 3 "hi"] rfl rfl

theorem asString_toList (s : String) : s.toList.asString = s := by
  cases s
  rfl

theorem asString_data (s : String) : s.data.asString = s := by
  cases s
  rfl

theorem validName_parts {s : String} (h : validName s = true) :
    s.toList ≠ [] ∧ ∀ c ∈ s.toList, sep2 c = false := by
  simp only [validName, Bool.and_eq_true] at h
  constructor
  · intro he
    rw [he] at h
    simp at h
  · intro c hc
    have := List.all_eq_true.mp h.2 c hc
    simpa using this

theorem pathStr_data : ∀ p : List String, (pathStr p).data = pathChars p := by
  intro p
  induction p with
  | nil => rfl
  | cons nm rest ih =>
    show ("/" ++ (nm ++ pathStr rest)).data = pathChars (nm :: rest)
    simp [String.data_append, pathChars, String.toList, ih]

theorem takeWhile_all_append (q : Char → Bool) : ∀ (w l' : List Char),
    (∀ c ∈ w, q c = true) → (w ++ l').takeWhile q = w ++ l'.takeWhile q := by
  intro w
  induction w with
  | nil => intro l' _; rfl
  | cons a t ih =>
    intro l' h
    simp [List.takeWhile_cons, h a (by simp), ih l' (fun c hc => h c (by simp [hc]))]

theorem dropWhile_all_append (q : Char → Bool) : ∀ (w l' : List Char),
    (∀ c ∈ w, q c = true) → (w ++ l').dropWhile q = l'.dropWhile q := by
  intro w
  induction w with
  | nil => intro l' _; rfl
  | cons a t ih =>
    intro l' h
    simp only [List.cons_append, List.dropWhile_cons, h a (by simp)]
    exact ih l' (fun c hc => h c (by simp [hc]))

theorem tok2Go_chunk : ∀ (w cur l' : List Char), (∀ c ∈ w, sep2 c = false) →
    tok2Go cur (w ++ l') = tok2Go (w.reverse ++ cur) l' := by
  intro w
  induction w with
  | nil => intro cur l' _; simp
  | cons c cs ih =>
    intro cur l' h
    have hc : sep2 c = false := h c (by simp)
    simp only [List.cons_append, tok2Go, hc, Bool.false_eq_true, if_false,
      List.append_eq]
    rw [ih (c :: cur) l' (fun x hx => h x (by simp [hx]))]
    simp

theorem tok2Go_pathChars : ∀ (q : List String) (cur : List Char), cur ≠ [] →
    (∀ s ∈ q, validName s = true) →
    tok2Go cur (pathChars q) = cur.reverse.asString :: q := by
  intro q
  induction q with
  | nil =>
    intro cur hc _
    have hce : cur.isEmpty = false := by
      cases cur
      · exact absurd rfl hc
      · rfl
    simp [pathChars, tok2Go, hce]
  | cons nm rest ih =>
    intro cur hc hv
    have hce : cur.isEmpty = false := by
      cases cur
      · exact absurd rfl hc
      · rfl
    obtain ⟨hne, hall⟩ := validName_parts (hv nm (by simp))
    have hpc : pathChars (nm :: rest) = '/' :: (nm.toList ++ pathChars rest) := by
      simp [pathChars]
    rw [hpc]
    rw [show tok2Go cur ('/' :: (nm.toList ++ pathChars rest)) =
        cur.reverse.asString :: tok2Go [] (nm.toList ++ pathChars rest) from by
      simp [tok2Go, sep2, hce]]
    rw [tok2Go_chunk nm.toList [] (pathChars rest) hall]
    rw [List.append_nil]
    rw [ih nm.toList.reverse (by simpa using hne)
      (fun s hs => hv s (by simp [hs]))]
    rw [List.reverse_reverse, asString_toList]

theorem tokenizePath_pathStr (nm : String) (rest : List String)
    (hv1 : validName nm = true) (hsp : nm.toList.all (fun c => !sep1 c) = true)
    (hv : ∀ s ∈ rest, validName s = true) :
    tokenizePath (pathStr (nm :: rest)) = nm :: rest := by
  have hall1 : ∀ c ∈ nm.toList, (!sep1 c) = true := fun c hc =>
    List.all_eq_true.mp hsp c hc
  obtain ⟨hlist, -⟩ := validName_parts hv1
  have hdata : (pathStr (nm :: rest)).toList =
      '/' :: (nm.toList ++ pathChars rest) := by
    show (pathStr (nm :: rest)).data = _
    rw [pathStr_data]
    simp [pathChars]
  obtain ⟨a, t, hat⟩ : ∃ a t, nm.toList = a :: t := by
    cases hl : nm.toList
    · exact absurd hl hlist
    · exact ⟨_, _, rfl⟩
  have hna : sep1 a = false := by
    have := hall1 a (by rw [hat]; simp)
    simpa using this
  have hdrop : List.dropWhile (fun c => sep1 c)
      ('/' :: (nm.toList ++ pathChars rest)) = nm.toList ++ pathChars rest := by
    rw [show List.dropWhile (fun c => sep1 c)
        ('/' :: (nm.toList ++ pathChars rest)) =
        List.dropWhile (fun c => sep1 c) (nm.toList ++ pathChars rest) from rfl]
    rw [hat, List.cons_append, List.dropWhile_cons]
    simp [hna]
  have htake : List.takeWhile (fun c => !sep1 c)
      (nm.toList ++ pathChars rest) =
      nm.toList ++ List.takeWhile (fun c => !sep1 c) (pathChars rest) :=
    takeWhile_all_append _ _ _ hall1
  have hdrop2 : List.dropWhile (fun c => !sep1 c)
      (nm.toList ++ pathChars rest) =
      List.dropWhile (fun c => !sep1 c) (pathChars rest) :=
    dropWhile_all_append _ _ _ hall1
  simp only [tokenizePath, hdata, hdrop]
  rw [show (nm.toList ++ pathChars rest).isEmpty = false from by
    rw [hat]; rfl]
  simp only [Bool.false_eq_true, if_false, htake, hdrop2]
  cases rest with
  | nil =>
    simp [pathChars, asString_toList, asString_data]
  | cons m rest2 =>
    obtain ⟨hm, hallm⟩ := validName_parts (hv m (by simp))
    have hpc : pathChars (m :: rest2) = '/' :: (m.toList ++ pathChars rest2) := by
      simp [pathChars]
    rw [hpc]
    rw [show List.takeWhile (fun c => !sep1 c)
        ('/' :: (m.toList ++ pathChars rest2)) = [] from rfl]
    rw [show List.dropWhile (fun c => !sep1 c)
        ('/' :: (m.toList ++ pathChars rest2)) =
        '/' :: (m.toList ++ pathChars rest2) from rfl]
    rw [List.append_nil, asString_toList]
    show nm :: tok2Go [] (m.toList ++ pathChars rest2) = nm :: m :: rest2
    rw [tok2Go_chunk m.toList [] (pathChars rest2) hallm, List.append_nil]
    rw [tok2Go_pathChars rest2 m.toList.reverse (by simpa using hm)
      (fun s hs => hv s (by simp [hs]))]
    rw [List.reverse_reverse, asString_toList]

/-- C6: `getPath` composed with the path resolver is an identity.  For every
non-root node (addressed by the nonempty path `nm :: rest`, whose components
are `strtok` tokens: nonempty, free of separators, and — for the first
component, which `enter_path` cuts with the larger delimiter set — free of
spaces), resolving the string `fs_get_path` builds, through the command
layer's tokenizer with no capture mode, returns exactly that node. -/
theorem get_path_resolve_id (root n : Node) (nm : String) (rest : List String)
    (hres : getAt (nm :: rest) root = some n)
    (hv1 : validName nm = true) (hsp : nm.toList.all (fun c => !sep1 c) = true)
    (hv : ∀ s ∈ rest, validName s = true) :
    ∃ s, fs_get_path_at (nm :: rest) = some s ∧
      enter_path false (tokenizePath s) root = some (n, none) := by
  refine ⟨pathStr (nm :: rest), fs_get_path_at_eq _ (by simp), ?_⟩
  rw [tokenizePath_pathStr nm rest hv1 hsp hv]
  rw [show enter_path false (nm :: rest) root = walk false (nm :: rest) root
    from rfl]
  rw [walk_false_getAt, hres]
  rfl

/-- C6 counterexample: at the root the getPath-then-resolve identity fails.
The reconstruction loop produces no string for the root (its condition reads
the absent parent node, see C7), and even the conceptual empty root path
tokenizes to the empty sequence, which the resolver always rejects — the
root can never be returned by resolution. -/
theorem get_path_resolve_root_cex :
    fs_get_path_at [] = none ∧
    enter_path false (tokenizePath "") fs_new_root = none :=
  ⟨rfl, rfl⟩

/-- Witness for C6: the path of `/a/f` resolves back to the file `f`. -/
theorem get_path_resolve_id_witness :
    ∃ s, fs_get_path_at ["a", "f"] = some s ∧
      enter_path false (tokenizePath s)
        (.dir "" 1 [.dir "a" 2 [.file "f" 3 "hi"]]) =
        some (.file "f" 3 "hi", none) :=
  get_path_resolve_id (.dir "" 1 [.dir "a" 2 [.file "f" 3 "hi"]])
    (.file "f" 3 "hi") "a" ["f"] rfl (by decide) (by decide)
    (by intro s hs; simp at hs; subst hs; decide)

end SimpleFS
